import Mathlib

/-!
Verification development for the `source-map-loader` webpack loader
(`src/index.ts`).  The loader scans an input text for the last
`sourceMappingURL` directive comment, resolves the referenced source map
(inline base64 data URI or file path), enriches the map by resolving every
listed source and loading missing content, and returns the rewritten text
paired with the enriched map.

Shallow embedding conventions:
* JS strings are `String` / `List Char`; the two directive regexes
  (`regex1`, `regex2`), the data-URL regex (`regexDataUrl`) and the scheme
  regex (`regexUrl`) are embedded as explicit backtracking matchers that
  follow the JS regex engine's leftmost-match, greedy-with-backtracking
  semantics for these concrete patterns.
* External Node capabilities (`fs.readFile`, `JSON.parse`,
  `Buffer.from(…,"base64")`, `path.resolve`, `path.dirname`,
  `url.fileURLToPath`) are fields of an `Env` record: the loader's own
  logic never inspects their internals.  Failure-carrying calls return
  `Except String`, the error string standing for the stringified JS
  exception.  `fileURLToPath` is modelled as total (Node ≥ 10).
* The `undefined` / `null` distinction of JS values is kept where the code
  can observe it (`JContent`).
* Asynchronous fan-out over sources is sequentialised in index order;
  warning/dependency order is the only thing this fixes, the per-index
  results are order-independent exactly as in the code's `Promise.all`.
-/

/-! ## Character classes and basic list parsing -/

/-- The JS regex `\s` character class (ECMAScript WhiteSpace ∪ LineTerminator). -/
def jsSpace (c : Char) : Bool :=
  c = ' ' || c = '\t' || c = '\n' || c = '\r' ||
  c = '\x0b' || c = '\x0c' ||
  c = ' ' || c = ' ' ||
  (' ' ≤ c && c ≤ ' ') ||
  c = ' ' || c = ' ' || c = ' ' || c = ' ' ||
  c = '　' || c = '﻿'

/-- ASCII letter, the `[a-zA-Z]` class. -/
def isAsciiLetter (c : Char) : Bool :=
  ('a' ≤ c && c ≤ 'z') || ('A' ≤ c && c ≤ 'Z')

/-- Split a list at the longest prefix satisfying `p` (the greedy `p*`). -/
def spanWhile (p : Char → Bool) (l : List Char) : List Char × List Char :=
  (l.takeWhile p, l.dropWhile p)

/-- Strip the literal prefix `pat`; `none` when `l` does not start with it. -/
def stripPfx : List Char → List Char → Option (List Char)
  | [], l => some l
  | _ :: _, [] => none
  | a :: as, b :: bs => if a = b then stripPfx as bs else none

/-- Boolean prefix test on char lists. -/
def isPfx : List Char → List Char → Bool
  | [], _ => true
  | _ :: _, [] => false
  | a :: as, b :: bs => a = b && isPfx as bs

/-- Boolean substring-occurrence test on char lists. -/
def occursIn (pat : List Char) (l : List Char) : Bool :=
  isPfx pat l ||
    match l with
    | [] => false
    | _ :: l' => occursIn pat l'

/-- The literal marker the directive regexes are built around. -/
def smToken : List Char :=
  ['s', 'o', 'u', 'r', 'c', 'e', 'M', 'a', 'p', 'p', 'i', 'n', 'g', 'U', 'R', 'L']

/-- The negative lookahead `(?![\S\s]*sourceMappingURL)` of `baseRegex`:
succeeds iff the marker occurs nowhere in the remaining text. -/
def noToken (l : List Char) : Bool := !(occursIn smToken l)

/-- Concatenate a list of lists (used for gathering warnings/dependencies). -/
def catL : List (List Char) → List Char
  | [] => []
  | a :: r => a ++ catL r

/-! ## The directive regexes

`baseRegex = "\s*[@#]\s*sourceMappingURL\s*=\s*([^\s]*)(?![\S\s]*sourceMappingURL)"`,
`regex1 = /\*` … `\s*\*\/` (block comments), `regex2 = //` … `(?:$|\n|\r\n?)`
(line comments).  The `\s*` runs before `[@#]`, before the marker and
around `=` are maximal-munch (the atom after each can never match a
whitespace character), but the `\s*` directly before the capture
backtracks: when every split of the greedy capture fails, the engine
hands the swallowed whitespace back one character at a time, the capture
then matching empty, so that the trailing context can start inside that
whitespace run — regex2 can terminate at a line terminator the `\s*` had
swallowed, and regex1's trailing `\s*\*\/` re-consumes the returned
whitespace.  The capture `([^\s]*)` itself is greedy with backtracking
against the lookahead and the trailing context. -/

/-- Parse `\s*[@#]\s*sourceMappingURL\s*=` followed by the greedy
pre-capture `\s*` run and the maximal `[^\s]*` capture.  Returns
`(head, w4, capMax, r)` with `input = head ++ w4 ++ capMax ++ r`: `head`
is everything through the `=`, `w4` the whitespace run before the capture
(kept separate because the engine can hand it back), `capMax` the maximal
capture, `r` the remainder. -/
def parseBase (s1 : List Char) : Option (List Char × List Char × List Char × List Char) :=
  match spanWhile jsSpace s1 with
  | (w1, t1) =>
    match t1 with
    | m :: t2 =>
      if m = '@' ∨ m = '#' then
        match spanWhile jsSpace t2 with
        | (w2, t3) =>
          match stripPfx smToken t3 with
          | some t4 =>
            match spanWhile jsSpace t4 with
            | (w3, t5) =>
              match t5 with
              | e :: t6 =>
                if e = '=' then
                  match spanWhile jsSpace t6 with
                  | (w4, t7) =>
                    match spanWhile (fun c => !jsSpace c) t7 with
                    | (cap, r) =>
                      some (w1 ++ m :: (w2 ++ smToken ++ w3 ++ [e]), w4, cap, r)
                else none
              | [] => none
          | none => none
      else none
    | [] => none

/-- The backtracking search over the capture length, longest first, exactly
as the JS engine tries `([^\s]*)`: at each candidate split the check `chk`
(the lookahead) is evaluated on the remainder, then `tail` (the trailing
context `\s*\*\/` resp. `(?:$|\n|\r\n?)`); on failure one character moves
from the capture back to the remainder.  Returns
`(capture, tailConsumed, post)`. -/
def searchCap (chk : List Char → Bool) (tail : List Char → Option (List Char × List Char)) :
    List Char → List Char → Option (List Char × List Char × List Char)
  | [], r =>
    match (if chk r then tail r else none) with
    | some (tc, post) => some (([] : List Char).reverse, tc, post)
    | none => none
  | c :: capRev', r =>
    match (if chk r then tail r else none) with
    | some (tc, post) => some ((c :: capRev').reverse, tc, post)
    | none => searchCap chk tail capRev' (c :: r)

/-- Continuation of the backtracking search into the `\s*` run before
the capture: when every capture split has failed, the JS engine hands the
swallowed whitespace back one character at a time; at each such position
the capture is necessarily empty (the next character is whitespace), the
lookahead `chk` is evaluated on the remainder and the trailing context
`tail` attempted on it, exactly as in `searchCap`.  `wRev` is the
reversed whitespace still consumed by `\s*`; returns
`(wsConsumed, tailConsumed, post)`. -/
def searchWs (chk : List Char → Bool) (tail : List Char → Option (List Char × List Char)) :
    List Char → List Char → Option (List Char × List Char × List Char)
  | [], _ => none
  | c :: wRev', r =>
    match (if chk (c :: r) then tail (c :: r) else none) with
    | some (tc, post) => some (wRev'.reverse, tc, post)
    | none => searchWs chk tail wRev' (c :: r)

/-- Trailing context of `regex1`: `\s*\*\/`. -/
def tailBlock (r : List Char) : Option (List Char × List Char) :=
  match spanWhile jsSpace r with
  | (w, t) =>
    match t with
    | c1 :: c2 :: post =>
      if c1 = '*' ∧ c2 = '/' then some (w ++ [c1, c2], post) else none
    | _ => none

/-- Trailing context of `regex2`: `(?:$|\n|\r\n?)` ($ = end of input, no
multiline flag; alternatives tried in order, `\r\n` before `\r`). -/
def tailLine (r : List Char) : Option (List Char × List Char) :=
  match r with
  | [] => some ([], [])
  | c :: post =>
    if c = '\n' then some ([c], post)
    else if c = '\r' then
      match post with
      | c2 :: post2 => if c2 = '\n' then some ([c, c2], post2) else some ([c], post)
      | [] => some ([c], [])
    else none

/-- Attempt one directive regex anchored at the start of `s`.  `c2` is the
second character of the comment opener (`'*'` for `regex1`, `'/'` for
`regex2`), `chk` the lookahead (`noToken` for the real regexes, trivially
true for the lookahead-free form used to state claims about well-formed
directive occurrences).  Returns `(matched, url, rest, post)` where
`matched` is the whole match (`match[0]`), `url` the capture (`match[1]`),
`rest` the suffix of `s` starting right after the capture and `post` the
suffix after the whole match. -/
def tryDirective (c2 : Char) (chk : List Char → Bool)
    (tail : List Char → Option (List Char × List Char)) (s : List Char) :
    Option (List Char × List Char × List Char × List Char) :=
  match s with
  | a :: c :: s1 =>
    if a = '/' ∧ c = c2 then
      match parseBase s1 with
      | some (head, w4, capMax, r) =>
        match searchCap chk tail capMax.reverse r with
        | some (url, tc, post) =>
          some (a :: c :: (head ++ w4 ++ url ++ tc), url, tc ++ post, post)
        | none =>
          match searchWs chk tail w4.reverse (capMax ++ r) with
          | some (wHead, tc, post) =>
            some (a :: c :: (head ++ wHead ++ tc), [], tc ++ post, post)
          | none => none
      | none => none
    else none
  | _ => none

/-- `regex1` anchored at the start (block comments). -/
def tryAt1 : List Char → Option (List Char × List Char × List Char × List Char) :=
  tryDirective '*' noToken tailBlock

/-- `regex2` anchored at the start (line comments). -/
def tryAt2 : List Char → Option (List Char × List Char × List Char × List Char) :=
  tryDirective '/' noToken tailLine

/-- The block-comment directive FORM, i.e. `regex1` with the negative
lookahead dropped: what the spec calls a well-formed directive comment. -/
def tryForm1 : List Char → Option (List Char × List Char × List Char × List Char) :=
  tryDirective '*' (fun _ => true) tailBlock

/-- The line-comment directive FORM (`regex2` without the lookahead). -/
def tryForm2 : List Char → Option (List Char × List Char × List Char × List Char) :=
  tryDirective '/' (fun _ => true) tailLine

/-- A successful directive match: `pre ++ matched ++ post` is the input,
`url` is the captured reference, `rest` the input suffix starting right
after the capture. -/
structure DirectiveMatch where
  pre : List Char
  matched : List Char
  url : List Char
  rest : List Char
  post : List Char
deriving DecidableEq

/-- Leftmost-match scan of one regex over the input, as `String.match`. -/
def scanWith (t : List Char → Option (List Char × List Char × List Char × List Char)) :
    List Char → Option DirectiveMatch
  | [] =>
    match t [] with
    | some (mt, u, rest, post) => some ⟨[], mt, u, rest, post⟩
    | none => none
  | c :: s' =>
    match t (c :: s') with
    | some (mt, u, rest, post) => some ⟨[], mt, u, rest, post⟩
    | none => (scanWith t s').map (fun m => ⟨c :: m.pre, m.matched, m.url, m.rest, m.post⟩)

/-- `inputSource.match(regex1) || inputSource.match(regex2)`. -/
def loaderMatch (s : List Char) : Option DirectiveMatch :=
  match scanWith tryAt1 s with
  | some m => some m
  | none => scanWith tryAt2 s

/-- Full-span ends of well-formed directive FORMS (either comment shape,
lookahead ignored) anchored at position `q` of the text; used to state
where directive comments occur. -/
def formEnds (text : List Char) (q : Nat) : List Nat :=
  (match tryForm1 (List.drop q text) with
   | some (mt, _, _, _) => [q + mt.length]
   | none => []) ++
  (match tryForm2 (List.drop q text) with
   | some (mt, _, _, _) => [q + mt.length]
   | none => [])

/-! ## `String.replace(match[0], "")` -/

/-- Split at the first occurrence of `pat`; `some (a, b)` with the input
equal to `a ++ pat ++ b` and `a` shortest. -/
def splitOnFirst (pat : List Char) : List Char → Option (List Char × List Char)
  | [] => if isPfx pat [] then some ([], []) else none
  | c :: s' =>
    if isPfx pat (c :: s') then some ([], List.drop pat.length (c :: s'))
    else (splitOnFirst pat s').map (fun p => (c :: p.1, p.2))

/-- JS `String.prototype.replace` with a string pattern and empty
replacement: removes the FIRST occurrence of `pat` only. -/
def replaceFirst (pat s : List Char) : List Char :=
  match splitOnFirst pat s with
  | some (a, b) => a ++ b
  | none => s

/-! ## The data-URL regex

`regexDataUrl = /data:[^;\n]+(?:;charset=[^;\n]+)?;base64,([a-zA-Z0-9+/]+={0,2})/`.
Both `[^;\n]+` groups are maximal-munch (the following context requires
`;`), the optional `;charset=…` group is tried first and dropped on
failure, `[a-zA-Z0-9+/]+` is maximal-munch and `={0,2}` takes up to two
equals signs. -/

/-- The `[a-zA-Z0-9+/]` class. -/
def b64Char (c : Char) : Bool :=
  isAsciiLetter c || ('0' ≤ c && c ≤ '9') || c = '+' || c = '/'

/-- `[^;\n]`. -/
def nonSemiNL (c : Char) : Bool := !(c = ';' || c = '\n')

/-- `regexDataUrl` anchored at the start of `s`; returns the capture. -/
def tryDataAt (s : List Char) : Option (List Char) :=
  match stripPfx ['d', 'a', 't', 'a', ':'] s with
  | none => none
  | some r0 =>
    let mime := spanWhile nonSemiNL r0
    if mime.1 = [] then none
    else
      let withCharset : Option (List Char) :=
        match stripPfx [';', 'c', 'h', 'a', 'r', 's', 'e', 't', '='] mime.2 with
        | none => none
        | some rc =>
          let cs := spanWhile nonSemiNL rc
          if cs.1 = [] then none
          else stripPfx [';', 'b', 'a', 's', 'e', '6', '4', ','] cs.2
      let afterB64 : Option (List Char) :=
        match withCharset with
        | some r => some r
        | none => stripPfx [';', 'b', 'a', 's', 'e', '6', '4', ','] mime.2
      match afterB64 with
      | none => none
      | some rb =>
        let b := spanWhile b64Char rb
        if b.1 = [] then none
        else some (b.1 ++ (b.2.takeWhile (fun c => c = '=')).take 2)

/-- Leftmost `regexDataUrl.exec` search. -/
def dataUrlScan : List Char → Option (List Char)
  | [] => none
  | c :: r =>
    match tryDataAt (c :: r) with
    | some cap => some cap
    | none => dataUrlScan r

/-- `regexDataUrl.exec(url)`, capture group 1 (the base64 payload). -/
def dataUrlCapture (url : String) : Option String :=
  (dataUrlScan url.data).map String.mk

/-! ## The data model -/

/-- A JS value as observable in `sourcesContent` slots: a string, `null`,
or `undefined` (absent index). -/
inductive JContent
  | undef
  | null
  | jstr (s : String)
deriving DecidableEq

/-- The parts of a parsed raw source map the loader reads
(`RawSourceMap`).  `sourcesContent` entries are string-or-null;
a missing or null `sourcesContent` field is `none` (both are falsy under
the code's `sourceMap.sourcesContent || []`). -/
structure RawMap where
  sourceRoot : Option String
  sources : List String
  sourcesContent : Option (List (Option String))
deriving DecidableEq

/-- The enriched map the loader returns: `sourceRoot` has been deleted,
`sources` and `sourcesContent` rewritten; other fields pass through
untouched and are not modelled. -/
structure OutMap where
  sources : List String
  sourcesContent : List JContent
deriving DecidableEq

/-- The external capabilities (Node/webpack) the loader calls.  Error
strings stand for the stringified exceptions. -/
structure Env where
  readFile : String → Except String String
  parseJson : String → Except String RawMap
  decodeBase64 : String → String
  pathResolve : String → String → String
  dirname : String → String
  fileURLToPath : String → String

/-- JS array indexing `a[i]` on a `sourcesContent` array: out-of-bounds is
`undefined`, a stored `null` is `null`. -/
def jsGet (l : List (Option String)) (i : Nat) : JContent :=
  match l.get? i with
  | none => JContent.undef
  | some none => JContent.null
  | some (some s) => JContent.jstr s

/-! ## `resolveAbsolutePath` -/

/-- `url.startsWith(FILE_SCHEME)` with `FILE_SCHEME = "file:"`. -/
def startsWithFile (url : String) : Bool :=
  isPfx ['f', 'i', 'l', 'e', ':'] url.data

/-- `regexUrl.test(url)` for `regexUrl = /^[a-zA-Z]{2,}:/` — at least two
leading ASCII letters followed by a colon ("matches url with scheme,
doesn't match Windows disk"). -/
def regexUrlTest (url : String) : Bool :=
  let letters := url.data.takeWhile isAsciiLetter
  2 ≤ letters.length && (url.data.dropWhile isAsciiLetter).head? = some ':'

/-- `resolveAbsolutePath(context, url)` from `src/index.ts`: reject
non-`file:` URL schemes, convert `file:` URLs to paths, then
`path.resolve(context, filepath)`.  (The `!fileURLToPath` runtime check is
always false on supported Node, so it is not modelled.) -/
def resolveAbsolutePath (env : Env) (context url : String) : Except String String :=
  if regexUrlTest url && !startsWithFile url then
    Except.error ("URL scheme not supported: " ++ url)
  else
    let filepath := if startsWithFile url then env.fileURLToPath url else url
    Except.ok (env.pathResolve context filepath)

/-! ## `readSourceMap` -/

/-- `base64SourceMap.substr(0, 50)`. -/
def take50 (payload : String) : String := String.mk (payload.data.take 50)

/-- `readSourceMap(url)`: inline data-URL branch decodes and parses the
payload (registering no dependency); the file branch resolves, reads,
registers the file as a dependency and then parses.  Result:
`(dependencies, sourceMap and sourcesContext or thrown error)`. -/
def readSourceMap (env : Env) (ctx url : String) :
    List String × Except String (RawMap × String) :=
  match dataUrlCapture url with
  | some payload =>
    match env.parseJson (env.decodeBase64 payload) with
    | Except.ok m => ([], Except.ok (m, ctx))
    | Except.error ex =>
      ([], Except.error ("Cannot parse inline SourceMap '" ++ take50 payload ++ "': " ++ ex))
  | none =>
    match resolveAbsolutePath env ctx url with
    | Except.error e => ([], Except.error e)
    | Except.ok absolutePath =>
      match env.readFile absolutePath with
      | Except.error e => ([], Except.error e)
      | Except.ok fileContent =>
        match env.parseJson fileContent with
        | Except.ok m => ([absolutePath], Except.ok (m, env.dirname absolutePath))
        | Except.error ex =>
          ([absolutePath],
           Except.error ("Cannot parse SourceMap from " ++ url ++ ": " ++ ex))

/-! ## `loadSourceMap` -/

/-- One resolved source (`SourceAndContent`): the path written back into
`sources` and the content written into `sourcesContent`.  The code's
`source` field is always a string (the original string on resolution
failure, the absolute path otherwise). -/
structure SourceAndContent where
  source : String
  content : JContent
deriving DecidableEq

/-- Result of processing one source: its `SourceAndContent`, the warnings
emitted for it, and the dependencies registered for it. -/
structure PSRes where
  res : SourceAndContent
  warns : List String
  deps : List String
deriving DecidableEq

/-- The per-source closure of `loadSourceMap` (lines 98–140): resolve the
(prefixed) source against `sourcesContext`; on resolution failure warn
("Cannot find source file") and keep the original string with the content
`sourcesContent[i] !== null ? sourcesContent[i] : null`; if
`sourcesContent[i]` is a string use it without reading; otherwise read the
file, registering it as a dependency on success and warning
("Cannot open source file") with `null` content on failure. -/
def processSource (env : Env) (sourcesContext : String) (sc0 : List (Option String))
    (i : Nat) (source : String) : PSRes :=
  match resolveAbsolutePath env sourcesContext source with
  | Except.error ex =>
    { res := { source := source,
               content := if jsGet sc0 i ≠ JContent.null then jsGet sc0 i else JContent.null },
      warns := ["Cannot find source file '" ++ source ++ "': " ++ ex],
      deps := [] }
  | Except.ok absolutePath =>
    match jsGet sc0 i with
    | JContent.jstr s =>
      { res := { source := absolutePath, content := JContent.jstr s },
        warns := [], deps := [] }
    | _ =>
      match env.readFile absolutePath with
      | Except.error ex =>
        { res := { source := absolutePath, content := JContent.null },
          warns := ["Cannot open source file '" ++ absolutePath ++ "': " ++ ex],
          deps := [] }
      | Except.ok content =>
        { res := { source := absolutePath, content := JContent.jstr content },
          warns := [], deps := [absolutePath] }

/-- The indexed fan-out `sources.map(async (source, sourceIndex) => …)`
gathered in index order (`Promise.all` keeps slots positional). -/
def processSources (env : Env) (sourcesContext : String) (sc0 : List (Option String)) :
    Nat → List String → List PSRes
  | _, [] => []
  | i, s :: rest =>
    processSource env sourcesContext sc0 i s :: processSources env sourcesContext sc0 (i + 1) rest

/-- `sourceMap.sourceRoot ? sourceMap.sourceRoot + "/" : ""` (the empty
string is falsy). -/
def sourceRootPre (m : RawMap) : String :=
  match m.sourceRoot with
  | some r => if r = "" then "" else r ++ "/"
  | none => ""

/-- The prefixed sources computed in `loadSourceMap` line 92–94
(`sourcePrefix + s`). -/
def psources (m : RawMap) : List String :=
  m.sources.map (fun s => sourceRootPre m ++ s)

/-- Concatenate warning/dependency lists of the per-source results. -/
def catS : List (List String) → List String
  | [] => []
  | a :: r => a ++ catS r

/-- `loadSourceMap(sourceMapUrl, {keepRelativeSources})`: read the map,
prefix the sources with the source root (deleting `sourceRoot`), fan out
over the sources, then write back `sources` (only when
`!keepRelativeSources` — otherwise the map keeps its ORIGINAL `sources`
array, the prefixed one is local) and always write back `sourcesContent`.
Returns `(warnings, dependencies, enriched map or thrown error)`. -/
def loadSourceMap (env : Env) (ctx url : String) (keepRelativeSources : Bool) :
    List String × List String × Except String OutMap :=
  match readSourceMap env ctx url with
  | (deps0, Except.error e) => ([], deps0, Except.error e)
  | (deps0, Except.ok (m, sourcesContext)) =>
    let sc0 := m.sourcesContent.getD []
    let results := processSources env sourcesContext sc0 0 (psources m)
    ( catS (results.map PSRes.warns),
      deps0 ++ catS (results.map PSRes.deps),
      Except.ok
        { sources := if keepRelativeSources then m.sources else results.map (fun r => r.res.source),
          sourcesContent := results.map (fun r => r.res.content) } )

/-! ## The loader entry point -/

/-- The loader function: pass through when the input is empty or already
carries a map; otherwise match `regex1` then `regex2`; on a match load the
map, and either return the text with the FIRST occurrence of `match[0]`
removed (`inputSource.replace(match[0], "")`) plus the map, or — when
loading threw — emit the error as a warning and pass the text through.
Result: `(text, map, warnings, dependencies)`. -/
def loaderRun (env : Env) (ctx : String) (text : String) (inputMap : Option OutMap)
    (keepRelativeSources : Bool) : String × Option OutMap × List String × List String :=
  if text = "" || inputMap.isSome then (text, inputMap, [], [])
  else
    match loaderMatch text.data with
    | none => (text, none, [], [])
    | some m =>
      match loadSourceMap env ctx (String.mk m.url) keepRelativeSources with
      | (w, d, Except.ok out) => (String.mk (replaceFirst m.matched text.data), some out, w, d)
      | (w, d, Except.error e) => (text, none, w ++ [e], d)

/-! ## Derived predicates used to state the claims -/

/-- Whether processing source `i` fails (resolution failure, or a required
file read failure); mirrors the two warning sites of the per-source
closure. -/
def sourceFails (env : Env) (sctx : String) (sc0 : List (Option String))
    (i : Nat) (s : String) : Bool :=
  match resolveAbsolutePath env sctx s with
  | Except.error _ => true
  | Except.ok abs =>
    match jsGet sc0 i with
    | JContent.jstr _ => false
    | _ =>
      match env.readFile abs with
      | Except.error _ => true
      | Except.ok _ => false

/-- Number of failing sources, indexed as the fan-out is. -/
def countFails (env : Env) (sctx : String) (sc0 : List (Option String)) :
    Nat → List String → Nat
  | _, [] => 0
  | i, s :: rest =>
    (if sourceFails env sctx sc0 i s then 1 else 0) + countFails env sctx sc0 (i + 1) rest

/-- The spec's wording of the generic scheme test: the reference begins
with two or more alphabetic letters followed by a colon.  (Stated
independently of `regexUrlTest`, which is the code's regex.) -/
def specGenericScheme (url : String) : Prop :=
  ∃ a b, url.data = a ++ ':' :: b ∧ 2 ≤ a.length ∧ ∀ c ∈ a, isAsciiLetter c = true

/-! ## Concrete environments and fixtures used by witnesses and
counterexamples -/

/-- A small filesystem/JSON world: one map (`sourceRoot = "R"`, one
source `a.js`, no `sourcesContent`) reachable via base64 payload
`QQ==`, and one readable source file. -/
def env1 : Env where
  readFile := fun p => if p = "/c/R/a.js" then Except.ok "SRC" else Except.error "ENOENT"
  parseJson := fun s =>
    if s = "M1" then Except.ok { sourceRoot := some "R", sources := ["a.js"], sourcesContent := none }
    else Except.error "SyntaxError: Unexpected token"
  decodeBase64 := fun b => if b = "QQ==" then "M1" else ""
  pathResolve := fun b p => b ++ "/" ++ p
  dirname := fun _ => "/c"
  fileURLToPath := fun s => s

/-- World for the duplicate-directive runs: the inline payload `QQ==`
decodes to a trivial map with no sources. -/
def env4 : Env where
  readFile := fun _ => Except.error "ENOENT"
  parseJson := fun s =>
    if s = "M4" then Except.ok { sourceRoot := none, sources := [], sourcesContent := none }
    else Except.error "SyntaxError: Unexpected token"
  decodeBase64 := fun b => if b = "QQ==" then "M4" else ""
  pathResolve := fun b p => b ++ "/" ++ p
  dirname := fun _ => "/c"
  fileURLToPath := fun s => s

/-- World with one good and one unresolvable source: map `M5` has an empty
`sourceRoot`, a readable `good.js` and a scheme-carrying `http://bad`. -/
def env5 : Env where
  readFile := fun p => if p = "/c/good.js" then Except.ok "G" else Except.error "ENOENT"
  parseJson := fun s =>
    if s = "M5" then
      Except.ok { sourceRoot := some "", sources := ["good.js", "http://bad"],
                  sourcesContent := some [none] }
    else Except.error "SyntaxError: Unexpected token"
  decodeBase64 := fun b => if b = "Qg==" then "M5" else ""
  pathResolve := fun b p => b ++ "/" ++ p
  dirname := fun _ => "/c"
  fileURLToPath := fun s => s

/-- World where every file read rejects with the raw Node `ENOENT` error. -/
def env8 : Env where
  readFile := fun _ =>
    Except.error "ENOENT: no such file or directory, open '/c/missing.map'"
  parseJson := fun _ => Except.error "SyntaxError: Unexpected token"
  decodeBase64 := fun _ => ""
  pathResolve := fun b p => b ++ "/" ++ p
  dirname := fun _ => "/c"
  fileURLToPath := fun s => s

/-- World whose path resolver passes absolute (slash-leading) paths
through unchanged, like Node `path.resolve`. -/
def envAbs : Env where
  readFile := fun _ => Except.error "ENOENT"
  parseJson := fun _ => Except.error "SyntaxError: Unexpected token"
  decodeBase64 := fun _ => ""
  pathResolve := fun b p => if isPfx ['/'] p.data then p else b ++ "/" ++ p
  dirname := fun _ => "/c"
  fileURLToPath := fun s => s

/-- A line directive with an inline data URL, trailing newline included. -/
def dirStr : String := "//# sourceMappingURL=data:a;base64,QQ==\n"

/-- Input whose matched (last) directive text also occurs earlier. -/
def exDup : String := dirStr ++ "X\n" ++ dirStr

/-- Single-directive input for the rewrite witness. -/
def text4 : String := "A\n" ++ dirStr

/-- A block directive whose captured reference is itself a line
directive: the line-form occurrence starts later (position 21) but the
block form is matched. -/
def ex3n : String := "/*# sourceMappingURL=//#sourceMappingURL=x\n*/"

/-- Two line directives; only the second is honored. -/
def ex3w : String := "//# sourceMappingURL=a.map\n//# sourceMappingURL=b.map\n"

/-- Input with an inline directive whose payload decodes to junk. -/
def text7 : String := "A\n//# sourceMappingURL=data:a;base64,Qm8=\n"

/-- Input referencing a missing external map file. -/
def text8 : String := "A\n//# sourceMappingURL=missing.map\n"

/-- Input with one directive followed by a bare `sourceMappingURL`
occurrence (e.g. an identifier): the lookahead then kills every
match. -/
def ex10 : String := "//# sourceMappingURL=x\nvar sourceMappingURL = 1"

/-- The raw map env5 parses: empty sourceRoot, one readable and one
unresolvable source, a null first sourcesContent entry. -/
def m5 : RawMap :=
  { sourceRoot := some "", sources := ["good.js", "http://bad"], sourcesContent := some [none] }

/-! ## Basic lemmas about the parsing primitives -/

theorem spanWhile_eq (p : Char → Bool) (l : List Char) :
    (spanWhile p l).1 ++ (spanWhile p l).2 = l :=
  List.takeWhile_append_dropWhile p l

theorem stripPfx_eq : ∀ (p l r : List Char), stripPfx p l = some r → l = p ++ r
  | [], l, r, h => by simp [stripPfx] at h; simp [h]
  | _ :: _, [], _, h => by simp [stripPfx] at h
  | a :: as, b :: bs, r, h => by
    by_cases hab : a = b
    · simp only [stripPfx, if_pos hab] at h
      have := stripPfx_eq as bs r h
      simp [hab, this]
    · simp [stripPfx, hab] at h

theorem isPfx_append_self : ∀ (p l : List Char), isPfx p (p ++ l) = true
  | [], _ => rfl
  | a :: as, l => by simp [isPfx, isPfx_append_self as l]

theorem isPfx_exists : ∀ (p l : List Char), isPfx p l = true → ∃ r, l = p ++ r
  | [], l, _ => ⟨l, rfl⟩
  | _ :: _, [], h => by simp [isPfx] at h
  | a :: as, b :: bs, h => by
    simp only [isPfx, Bool.and_eq_true, decide_eq_true_eq] at h
    obtain ⟨r, hr⟩ := isPfx_exists as bs h.2
    exact ⟨r, by simp [h.1, hr]⟩

theorem occursIn_cons (pat : List Char) (c : Char) (l : List Char) :
    occursIn pat (c :: l) = (isPfx pat (c :: l) || occursIn pat l) := by
  rw [occursIn]

theorem occursIn_of_isPfx {pat l : List Char} (h : isPfx pat l = true) :
    occursIn pat l = true := by
  cases l with
  | nil => rw [occursIn]; simp [h]
  | cons c l' => rw [occursIn_cons]; simp [h]

theorem occursIn_tail {pat : List Char} (c : Char) {l : List Char}
    (h : occursIn pat l = true) : occursIn pat (c :: l) = true := by
  rw [occursIn_cons]; simp [h]

theorem occursIn_drop {pat : List Char} : ∀ (k : Nat) (l : List Char),
    isPfx pat (List.drop k l) = true → occursIn pat l = true
  | 0, l, h => occursIn_of_isPfx (by simpa using h)
  | k + 1, [], h => by
      cases pat with
      | nil => exact occursIn_of_isPfx rfl
      | cons a as => simp [isPfx] at h
  | k + 1, c :: l', h => occursIn_tail c (occursIn_drop k l' (by simpa using h))

theorem occursIn_append_right {pat b : List Char} : ∀ (a : List Char),
    occursIn pat b = true → occursIn pat (a ++ b) = true
  | [], h => h
  | c :: a', h => occursIn_tail c (occursIn_append_right a' h)

theorem tailBlock_eq : ∀ (r tc post : List Char), tailBlock r = some (tc, post) → r = tc ++ post := by
  intro r tc post h
  have hr := spanWhile_eq jsSpace r
  simp only [tailBlock] at h
  split at h
  · rename_i t c1 c2 post' heq
    split at h
    · rename_i hc
      simp only [Option.some.injEq, Prod.mk.injEq] at h
      rw [heq] at hr
      rw [← hr, ← h.1, ← h.2]
      simp
    · simp at h
  · simp at h

theorem tailLine_eq : ∀ (r tc post : List Char), tailLine r = some (tc, post) → r = tc ++ post := by
  intro r tc post h
  simp only [tailLine] at h
  split at h
  · simp only [Option.some.injEq, Prod.mk.injEq] at h
    rw [← h.1, ← h.2]; rfl
  · rename_i c post0
    split at h
    · rename_i hc
      simp only [Option.some.injEq, Prod.mk.injEq] at h
      rw [← h.1, ← h.2]; rfl
    · split at h
      · rename_i hc hc2
        split at h
        · rename_i c2 post2
          split at h
          · rename_i hc3
            simp only [Option.some.injEq, Prod.mk.injEq] at h
            rw [← h.1, ← h.2]; rfl
          · simp only [Option.some.injEq, Prod.mk.injEq] at h
            rw [← h.1, ← h.2]; rfl
        · simp only [Option.some.injEq, Prod.mk.injEq] at h
          rw [← h.1, ← h.2]; rfl
      · simp at h

theorem parseBase_eq : ∀ (s1 hd w4 cap r : List Char), parseBase s1 = some (hd, w4, cap, r) →
    s1 = hd ++ w4 ++ cap ++ r := by
  intro s1 hd w4 cap r h
  have h1 := spanWhile_eq jsSpace s1
  simp only [parseBase] at h
  split at h
  · rename_i t1 m t2 heq1
    rw [heq1] at h1
    split at h
    · rename_i hm
      split at h
      · rename_i t4 heq2
        have h2 := spanWhile_eq jsSpace t2
        have h3 := stripPfx_eq smToken (spanWhile jsSpace t2).2 t4 heq2
        split at h
        · rename_i t5 e t6 heq3
          have h4 := spanWhile_eq jsSpace t4
          rw [heq3] at h4
          split at h
          · rename_i he
            have h5 := spanWhile_eq jsSpace t6
            have h6 := spanWhile_eq (fun c => !jsSpace c) (spanWhile jsSpace t6).2
            simp only [Option.some.injEq, Prod.mk.injEq] at h
            obtain ⟨hhd, hw4, hcap, hr⟩ := h
            set W1 := (spanWhile jsSpace s1).1 with hW1
            set W2 := (spanWhile jsSpace t2).1 with hW2
            set D2 := (spanWhile jsSpace t2).2 with hD2
            set W3 := (spanWhile jsSpace t4).1 with hW3
            set W4 := (spanWhile jsSpace t6).1 with hW4
            set D6 := (spanWhile jsSpace t6).2 with hD6
            set C := (spanWhile (fun c => !jsSpace c) D6).1 with hC
            set R := (spanWhile (fun c => !jsSpace c) D6).2 with hR
            rw [← h1, ← h2, h3, ← h4, ← h5, ← h6, ← hhd, ← hw4, ← hcap, ← hr]
            simp
          · simp at h
        · simp at h
      · simp at h
    · simp at h
  · simp at h

theorem searchCap_spec (chk : List Char → Bool) (tail : List Char → Option (List Char × List Char))
    (htail : ∀ r tc post, tail r = some (tc, post) → r = tc ++ post) :
    ∀ (capRev r u tc post : List Char),
      searchCap chk tail capRev r = some (u, tc, post) →
      chk (tc ++ post) = true ∧ tail (tc ++ post) = some (tc, post) ∧
        u ++ (tc ++ post) = capRev.reverse ++ r ∧ u.length ≤ capRev.length := by
  intro capRev
  induction capRev with
  | nil =>
    intro r u tc post h
    simp only [searchCap] at h
    cases hc : chk r with
    | false => rw [hc] at h; simp at h
    | true =>
      rw [hc, if_pos rfl] at h
      cases ht : tail r with
      | none => rw [ht] at h; simp at h
      | some pr =>
        obtain ⟨tc0, post0⟩ := pr
        rw [ht] at h
        simp only [Option.some.injEq, Prod.mk.injEq, List.reverse_nil] at h
        obtain ⟨hu, htc, hpost⟩ := h
        have hpr : tail r = some (tc, post) := by rw [ht, htc, hpost]
        have hr : r = tc ++ post := htail r tc post hpr
        refine ⟨by rw [← hr]; exact hc, by rw [← hr]; exact hpr, ?_, ?_⟩
        · rw [← hu, ← hr]; simp
        · rw [← hu]
  | cons c capRev' ih =>
    intro r u tc post h
    simp only [searchCap] at h
    cases hc : chk r with
    | false =>
      rw [hc] at h
      simp only [if_neg Bool.false_ne_true] at h
      have hrec := ih (c :: r) u tc post h
      refine ⟨hrec.1, hrec.2.1, ?_, ?_⟩
      · rw [hrec.2.2.1]; simp
      · have := hrec.2.2.2; simp; omega
    | true =>
      rw [hc, if_pos rfl] at h
      cases ht : tail r with
      | none =>
        rw [ht] at h
        have hrec := ih (c :: r) u tc post h
        refine ⟨hrec.1, hrec.2.1, ?_, ?_⟩
        · rw [hrec.2.2.1]; simp
        · have := hrec.2.2.2; simp; omega
      | some pr =>
        obtain ⟨tc0, post0⟩ := pr
        rw [ht] at h
        simp only [Option.some.injEq, Prod.mk.injEq] at h
        obtain ⟨hu, htc, hpost⟩ := h
        have hpr : tail r = some (tc, post) := by rw [ht, htc, hpost]
        have hr : r = tc ++ post := htail r tc post hpr
        refine ⟨by rw [← hr]; exact hc, by rw [← hr]; exact hpr, ?_, ?_⟩
        · rw [← hu, ← hr]
        · rw [← hu]; simp

theorem searchCap_true_of_tail (tail : List Char → Option (List Char × List Char))
    (capRev r tc0 post0 : List Char) (ht : tail r = some (tc0, post0)) :
    searchCap (fun _ => true) tail capRev r = some (capRev.reverse, tc0, post0) := by
  cases capRev <;> simp [searchCap, ht]

theorem searchCap_true_step (tail : List Char → Option (List Char × List Char))
    (c : Char) (capRev' r : List Char) (ht : tail r = none) :
    searchCap (fun _ => true) tail (c :: capRev') r =
      searchCap (fun _ => true) tail capRev' (c :: r) := by
  simp [searchCap, ht]

theorem searchCap_form (chk : List Char → Bool) (tail : List Char → Option (List Char × List Char))
    (htail : ∀ r tc post, tail r = some (tc, post) → r = tc ++ post) :
    ∀ (capRev r u tc post : List Char),
      searchCap chk tail capRev r = some (u, tc, post) →
      ∃ u' tc' post', searchCap (fun _ => true) tail capRev r = some (u', tc', post') ∧
        post'.length ≤ tc.length + post.length := by
  intro capRev
  induction capRev with
  | nil =>
    intro r u tc post h
    simp only [searchCap] at h
    cases hc : chk r with
    | false => simp [hc] at h
    | true =>
      cases ht : tail r with
      | none => simp [hc, ht] at h
      | some pr =>
        obtain ⟨tc0, post0⟩ := pr
        have h2 : u = [] ∧ tc0 = tc ∧ post0 = post := by
          have := h
          simp [hc, ht] at this
          exact ⟨this.1, this.2.1, this.2.2⟩
        refine ⟨[], tc0, post0, ?_, ?_⟩
        · simpa using searchCap_true_of_tail tail [] r tc0 post0 ht
        · rw [← h2.2.1, ← h2.2.2]; omega
  | cons c capRev' ih =>
    intro r u tc post h
    simp only [searchCap] at h
    cases hc : chk r with
    | true =>
      cases ht : tail r with
      | none =>
        rw [searchCap_true_step tail c capRev' r ht]
        have h' : searchCap chk tail capRev' (c :: r) = some (u, tc, post) := by
          have := h
          simpa [hc, ht] using this
        exact ih (c :: r) u tc post h'
      | some pr =>
        obtain ⟨tc0, post0⟩ := pr
        have h2 : (c :: capRev').reverse = u ∧ tc0 = tc ∧ post0 = post := by
          have := h
          simpa [hc, ht] using this
        refine ⟨(c :: capRev').reverse, tc0, post0,
          searchCap_true_of_tail tail (c :: capRev') r tc0 post0 ht, ?_⟩
        rw [← h2.2.1, ← h2.2.2]; omega
    | false =>
      have h' : searchCap chk tail capRev' (c :: r) = some (u, tc, post) := by
        have := h
        simpa [hc] using this
      cases ht : tail r with
      | none =>
        rw [searchCap_true_step tail c capRev' r ht]
        exact ih (c :: r) u tc post h'
      | some pr =>
        obtain ⟨tc0, post0⟩ := pr
        refine ⟨(c :: capRev').reverse, tc0, post0,
          searchCap_true_of_tail tail (c :: capRev') r tc0 post0 ht, ?_⟩
        have hspec := searchCap_spec chk tail htail capRev' (c :: r) u tc post h'
        have hlen := congrArg List.length hspec.2.2.1
        simp [List.length_append] at hlen
        have hub := hspec.2.2.2
        have hr0 : r = tc0 ++ post0 := htail r tc0 post0 ht
        have hrlen : r.length = tc0.length + post0.length := by
          rw [hr0]; simp [List.length_append]
        omega

theorem searchWs_true_of_tail (tail : List Char → Option (List Char × List Char))
    (c : Char) (wRev' r tc0 post0 : List Char) (ht : tail (c :: r) = some (tc0, post0)) :
    searchWs (fun _ => true) tail (c :: wRev') r = some (wRev'.reverse, tc0, post0) := by
  simp [searchWs, ht]

theorem searchWs_true_step (tail : List Char → Option (List Char × List Char))
    (c : Char) (wRev' r : List Char) (ht : tail (c :: r) = none) :
    searchWs (fun _ => true) tail (c :: wRev') r =
      searchWs (fun _ => true) tail wRev' (c :: r) := by
  simp [searchWs, ht]

theorem searchWs_spec (chk : List Char → Bool) (tail : List Char → Option (List Char × List Char))
    (htail : ∀ r tc post, tail r = some (tc, post) → r = tc ++ post) :
    ∀ (wRev r wHead tc post : List Char),
      searchWs chk tail wRev r = some (wHead, tc, post) →
      chk (tc ++ post) = true ∧ tail (tc ++ post) = some (tc, post) ∧
        wHead ++ (tc ++ post) = wRev.reverse ++ r ∧ wHead.length < wRev.length := by
  intro wRev
  induction wRev with
  | nil => intro r wHead tc post h; simp [searchWs] at h
  | cons c wRev' ih =>
    intro r wHead tc post h
    simp only [searchWs] at h
    cases hc : chk (c :: r) with
    | false =>
      have h' : searchWs chk tail wRev' (c :: r) = some (wHead, tc, post) := by
        have := h
        simpa [hc] using this
      have hrec := ih (c :: r) wHead tc post h'
      refine ⟨hrec.1, hrec.2.1, ?_, ?_⟩
      · rw [hrec.2.2.1]; simp
      · have := hrec.2.2.2; simp; omega
    | true =>
      cases ht : tail (c :: r) with
      | none =>
        have h' : searchWs chk tail wRev' (c :: r) = some (wHead, tc, post) := by
          have := h
          simpa [hc, ht] using this
        have hrec := ih (c :: r) wHead tc post h'
        refine ⟨hrec.1, hrec.2.1, ?_, ?_⟩
        · rw [hrec.2.2.1]; simp
        · have := hrec.2.2.2; simp; omega
      | some pr =>
        obtain ⟨tc0, post0⟩ := pr
        have h2 : wRev'.reverse = wHead ∧ tc0 = tc ∧ post0 = post := by
          have := h
          simpa [hc, ht] using this
        have hpr : tail (c :: r) = some (tc, post) := by rw [ht, h2.2.1, h2.2.2]
        have hcr : (c :: r) = tc ++ post := htail (c :: r) tc post hpr
        refine ⟨by rw [← hcr]; exact hc, by rw [← hcr]; exact hpr, ?_, ?_⟩
        · rw [← h2.1, ← hcr]
          simp
        · rw [← h2.1]
          simp

theorem searchWs_form (chk : List Char → Bool) (tail : List Char → Option (List Char × List Char))
    (htail : ∀ r tc post, tail r = some (tc, post) → r = tc ++ post) :
    ∀ (wRev r wHead tc post : List Char),
      searchWs chk tail wRev r = some (wHead, tc, post) →
      ∃ wH tc2 post2, searchWs (fun _ => true) tail wRev r = some (wH, tc2, post2) ∧
        post2.length ≤ tc.length + post.length := by
  intro wRev
  induction wRev with
  | nil => intro r wHead tc post h; simp [searchWs] at h
  | cons c wRev' ih =>
    intro r wHead tc post h
    simp only [searchWs] at h
    cases hc : chk (c :: r) with
    | true =>
      cases ht : tail (c :: r) with
      | none =>
        rw [searchWs_true_step tail c wRev' r ht]
        have h' : searchWs chk tail wRev' (c :: r) = some (wHead, tc, post) := by
          have := h
          simpa [hc, ht] using this
        exact ih (c :: r) wHead tc post h'
      | some pr =>
        obtain ⟨tc0, post0⟩ := pr
        have h2 : wRev'.reverse = wHead ∧ tc0 = tc ∧ post0 = post := by
          have := h
          simpa [hc, ht] using this
        refine ⟨wRev'.reverse, tc0, post0,
          searchWs_true_of_tail tail c wRev' r tc0 post0 ht, ?_⟩
        rw [← h2.2.1, ← h2.2.2]
        omega
    | false =>
      have h' : searchWs chk tail wRev' (c :: r) = some (wHead, tc, post) := by
        have := h
        simpa [hc] using this
      cases ht : tail (c :: r) with
      | none =>
        rw [searchWs_true_step tail c wRev' r ht]
        exact ih (c :: r) wHead tc post h'
      | some pr =>
        obtain ⟨tc0, post0⟩ := pr
        refine ⟨wRev'.reverse, tc0, post0,
          searchWs_true_of_tail tail c wRev' r tc0 post0 ht, ?_⟩
        have hspec := searchWs_spec chk tail htail wRev' (c :: r) wHead tc post h'
        have hlen := congrArg List.length hspec.2.2.1
        simp [List.length_append] at hlen
        have hwlt := hspec.2.2.2
        have hr0 : (c :: r) = tc0 ++ post0 := htail (c :: r) tc0 post0 ht
        have hrlen : r.length + 1 = tc0.length + post0.length := by
          have := congrArg List.length hr0
          simpa [List.length_append] using this
        omega

theorem tryDirective_spec (c2 : Char) (chk : List Char → Bool)
    (tail : List Char → Option (List Char × List Char))
    (htail : ∀ r tc post, tail r = some (tc, post) → r = tc ++ post)
    (s mt u rest post : List Char) (h : tryDirective c2 chk tail s = some (mt, u, rest, post)) :
    ∃ head tc, mt = '/' :: c2 :: (head ++ u ++ tc) ∧ rest = tc ++ post ∧
      chk rest = true ∧ s = mt ++ post := by
  simp only [tryDirective] at h
  split at h
  · rename_i a c s1
    split at h
    · rename_i hac
      obtain ⟨ha, hcc⟩ := hac
      split at h
      · rename_i head0 w4 capMax r heqp
        have hpb := parseBase_eq s1 head0 w4 capMax r heqp
        split at h
        · rename_i url tc post' heqs
          simp only [Option.some.injEq, Prod.mk.injEq] at h
          obtain ⟨hmt, hu, hrest, hpost⟩ := h
          have hspec := searchCap_spec chk tail htail capMax.reverse r url tc post' heqs
          have hcr : url ++ (tc ++ post') = capMax ++ r := by
            have := hspec.2.2.1
            rwa [List.reverse_reverse] at this
          refine ⟨head0 ++ w4, tc, ?_, ?_, ?_, ?_⟩
          · rw [← hmt, ha, hcc, hu]
          · rw [← hrest, ← hpost]
          · rw [← hrest]
            exact hspec.1
          · rw [← hmt, ← hpost, hpb]
            simp only [List.append_assoc]
            rw [← hcr]
            simp
        · split at h
          · rename_i wHead tc post' heqw
            simp only [Option.some.injEq, Prod.mk.injEq] at h
            obtain ⟨hmt, hu, hrest, hpost⟩ := h
            have hws := searchWs_spec chk tail htail w4.reverse (capMax ++ r) wHead tc post' heqw
            have hwr : wHead ++ (tc ++ post') = w4 ++ (capMax ++ r) := by
              have := hws.2.2.1
              rwa [List.reverse_reverse] at this
            refine ⟨head0 ++ wHead, tc, ?_, ?_, ?_, ?_⟩
            · rw [← hmt, ha, hcc, ← hu]
              simp [List.append_assoc]
            · rw [← hrest, ← hpost]
            · rw [← hrest]
              exact hws.1
            · rw [← hmt, ← hpost, hpb]
              simp only [List.append_assoc]
              rw [← hwr]
              simp
          · simp at h
      · simp at h
    · simp at h
  · simp at h

theorem tryDirective_form (c2 : Char) (chk : List Char → Bool)
    (tail : List Char → Option (List Char × List Char))
    (htail : ∀ r tc post, tail r = some (tc, post) → r = tc ++ post)
    (s mt u rest post : List Char) (h : tryDirective c2 chk tail s = some (mt, u, rest, post)) :
    ∃ mt' u' rest' post', tryDirective c2 (fun _ => true) tail s = some (mt', u', rest', post') ∧
      post'.length ≤ rest.length := by
  simp only [tryDirective] at h
  split at h
  · rename_i a c s1
    split at h
    · rename_i hac
      split at h
      · rename_i head0 w4 capMax r heqp
        split at h
        · rename_i url tc post' heqs
          simp only [Option.some.injEq, Prod.mk.injEq] at h
          obtain ⟨hmt, hu, hrest, hpost⟩ := h
          obtain ⟨u', tc', post'', hform, hlen⟩ :=
            searchCap_form chk tail htail capMax.reverse r url tc post' heqs
          refine ⟨a :: c :: (head0 ++ w4 ++ u' ++ tc'), u', tc' ++ post'', post'', ?_, ?_⟩
          · simp only [tryDirective, if_pos hac, heqp, hform]
          · rw [← hrest]
            simp only [List.length_append]
            omega
        · split at h
          · rename_i wHead tc post' heqw
            simp only [Option.some.injEq, Prod.mk.injEq] at h
            obtain ⟨hmt, hu, hrest, hpost⟩ := h
            have hws := searchWs_spec chk tail htail w4.reverse (capMax ++ r) wHead tc post' heqw
            have hwr := congrArg List.length hws.2.2.1
            simp [List.length_append] at hwr
            have hwlt := hws.2.2.2
            simp only [List.length_reverse] at hwlt
            cases hform1 : searchCap (fun _ => true) tail capMax.reverse r with
            | some pr =>
              obtain ⟨u', tc', post''⟩ := pr
              have hsp := searchCap_spec (fun _ => true) tail htail capMax.reverse r u' tc' post'' hform1
              have h1 := congrArg List.length hsp.2.2.1
              simp [List.length_append] at h1
              refine ⟨a :: c :: (head0 ++ w4 ++ u' ++ tc'), u', tc' ++ post'', post'', ?_, ?_⟩
              · simp only [tryDirective, if_pos hac, heqp, hform1]
              · rw [← hrest]
                simp only [List.length_append]
                omega
            | none =>
              obtain ⟨wH, tc2, post2, hformw, hlen2⟩ :=
                searchWs_form chk tail htail w4.reverse (capMax ++ r) wHead tc post' heqw
              refine ⟨a :: c :: (head0 ++ wH ++ tc2), [], tc2 ++ post2, post2, ?_, ?_⟩
              · simp only [tryDirective, if_pos hac, heqp, hform1, hformw]
              · rw [← hrest]
                simp only [List.length_append]
                omega
          · simp at h
      · simp at h
    · simp at h
  · simp at h

theorem scanWith_spec (t : List Char → Option (List Char × List Char × List Char × List Char)) :
    ∀ (s : List Char) (m : DirectiveMatch), scanWith t s = some m →
      ∃ s2, s = m.pre ++ s2 ∧ t s2 = some (m.matched, m.url, m.rest, m.post) := by
  intro s
  induction s with
  | nil =>
    intro m h
    simp only [scanWith] at h
    split at h
    · rename_i mt u rest post heq
      simp only [Option.some.injEq] at h
      exact ⟨[], by rw [← h]; rfl, by rw [← h]; exact heq⟩
    · simp at h
  | cons c s' ih =>
    intro m h
    simp only [scanWith] at h
    split at h
    · rename_i mt u rest post heq
      simp only [Option.some.injEq] at h
      exact ⟨c :: s', by rw [← h]; rfl, by rw [← h]; exact heq⟩
    · rename_i heq
      cases hsc : scanWith t s' with
      | none => rw [hsc] at h; simp at h
      | some m' =>
        rw [hsc] at h
        simp only [Option.map_some', Option.some.injEq] at h
        obtain ⟨s2, hs2, ht2⟩ := ih m' hsc
        refine ⟨s2, ?_, ?_⟩
        · rw [← h]
          show c :: s' = (c :: m'.pre) ++ s2
          rw [List.cons_append, ← hs2]
        · rw [← h]
          exact ht2

theorem directive_master (c2 : Char) (tail : List Char → Option (List Char × List Char))
    (htail : ∀ r tc post, tail r = some (tc, post) → r = tc ++ post)
    (s2 mt u rest post : List Char) (h : tryDirective c2 noToken tail s2 = some (mt, u, rest, post)) :
    noToken rest = true ∧ s2 = mt ++ post ∧
    ∃ A mt' u' rest' post', mt ++ post = A ++ rest ∧ 2 ≤ A.length ∧
      tryDirective c2 (fun _ => true) tail s2 = some (mt', u', rest', post') ∧
      A.length ≤ mt'.length := by
  obtain ⟨head, tc, hmt, hrest, hchk, hs2⟩ :=
    tryDirective_spec c2 noToken tail htail s2 mt u rest post h
  obtain ⟨mt', u', rest', post', hform, hlen⟩ :=
    tryDirective_form c2 noToken tail htail s2 mt u rest post h
  obtain ⟨headF, tcF, hmtF, hrestF, _, hsF⟩ :=
    tryDirective_spec c2 (fun _ => true) tail htail s2 mt' u' rest' post' hform
  refine ⟨hchk, hs2, '/' :: c2 :: (head ++ u), mt', u', rest', post', ?_, by simp, hform, ?_⟩
  · rw [hmt, hrest]
    simp
  · have h1 : s2.length = mt.length + post.length := by rw [hs2]; simp
    have h2 : s2.length = mt'.length + post'.length := by rw [hsF]; simp
    have h3 : mt.length = 2 + head.length + u.length + tc.length := by rw [hmt]; simp; omega
    have h4 : rest.length = tc.length + post.length := by rw [hrest]; simp
    simp only [List.length_cons, List.length_append]
    omega

theorem loaderMatch_cases (s : List Char) (m : DirectiveMatch) (h : loaderMatch s = some m) :
    scanWith tryAt1 s = some m ∨ scanWith tryAt2 s = some m := by
  simp only [loaderMatch] at h
  split at h
  · rename_i m0 heq
    exact Or.inl (by rw [heq, h])
  · exact Or.inr h

theorem loaderMatch_spec (s : List Char) (m : DirectiveMatch) (h : loaderMatch s = some m) :
    noToken m.rest = true ∧ s = m.pre ++ (m.matched ++ m.post) ∧
    ∃ A, m.matched ++ m.post = A ++ m.rest ∧ 2 ≤ A.length ∧
      ∃ e, e ∈ formEnds s m.pre.length ∧ m.pre.length + A.length ≤ e := by
  rcases loaderMatch_cases s m h with h1 | h2
  · obtain ⟨s2, hpre, htry⟩ := scanWith_spec tryAt1 s m h1
    have htryD : tryDirective '*' noToken tailBlock s2 = some (m.matched, m.url, m.rest, m.post) :=
      htry
    obtain ⟨hnt, hs2, A, mt', u', rest', post', hA, hA2, hform, hAlen⟩ :=
      directive_master '*' tailBlock tailBlock_eq s2 m.matched m.url m.rest m.post htryD
    have hdrop : List.drop m.pre.length s = s2 := by rw [hpre]; exact List.drop_left m.pre s2
    refine ⟨hnt, by rw [hpre, hs2], A, hA, hA2, m.pre.length + mt'.length, ?_, ?_⟩
    · simp only [formEnds, hdrop]
      have : tryForm1 s2 = some (mt', u', rest', post') := hform
      rw [this]
      simp
    · omega
  · obtain ⟨s2, hpre, htry⟩ := scanWith_spec tryAt2 s m h2
    have htryD : tryDirective '/' noToken tailLine s2 = some (m.matched, m.url, m.rest, m.post) :=
      htry
    obtain ⟨hnt, hs2, A, mt', u', rest', post', hA, hA2, hform, hAlen⟩ :=
      directive_master '/' tailLine tailLine_eq s2 m.matched m.url m.rest m.post htryD
    have hdrop : List.drop m.pre.length s = s2 := by rw [hpre]; exact List.drop_left m.pre s2
    refine ⟨hnt, by rw [hpre, hs2], A, hA, hA2, m.pre.length + mt'.length, ?_, ?_⟩
    · simp only [formEnds, hdrop]
      have : tryForm2 s2 = some (mt', u', rest', post') := hform
      rw [this]
      simp
    · omega

theorem splitOnFirst_of_isPfx (pat s : List Char) (h : isPfx pat s = true) :
    splitOnFirst pat s = some ([], List.drop pat.length s) := by
  cases s <;> simp [splitOnFirst, h]

theorem splitOnFirst_no_earlier (pat post : List Char) : ∀ (pre : List Char),
    (∀ k, k < pre.length → isPfx pat (List.drop k (pre ++ pat ++ post)) = false) →
    splitOnFirst pat (pre ++ pat ++ post) = some (pre, post) := by
  intro pre
  induction pre with
  | nil =>
    intro _
    simp only [List.nil_append]
    rw [splitOnFirst_of_isPfx pat (pat ++ post) (isPfx_append_self pat post)]
    rw [List.drop_left]
  | cons c pre' ih =>
    intro h
    have h0 : isPfx pat (c :: (pre' ++ (pat ++ post))) = false := by
      have := h 0 (by simp)
      simpa [List.append_assoc] using this
    have hrest : ∀ k, k < pre'.length → isPfx pat (List.drop k (pre' ++ pat ++ post)) = false := by
      intro k hk
      have := h (k + 1) (by simp only [List.length_cons]; omega)
      simpa using this
    show splitOnFirst pat (c :: (pre' ++ pat ++ post)) = some (c :: pre', post)
    simp only [splitOnFirst]
    rw [if_neg (by simp [h0])]
    rw [ih hrest]
    rfl

theorem replaceFirst_no_earlier (pat post : List Char) (pre : List Char)
    (h : ∀ k, k < pre.length → isPfx pat (List.drop k (pre ++ pat ++ post)) = false) :
    replaceFirst pat (pre ++ pat ++ post) = pre ++ post := by
  unfold replaceFirst
  rw [splitOnFirst_no_earlier pat post pre h]

/-! ## Lemmas about the enricher fan-out -/

theorem jsGet_nil (i : Nat) : jsGet [] i = JContent.undef := rfl

theorem processSources_all_ok (env : Env) (sctx : String) (f g : String → String) :
    ∀ (srcs : List String) (i : Nat),
      (∀ s ∈ srcs, resolveAbsolutePath env sctx s = Except.ok (f s)) →
      (∀ s ∈ srcs, env.readFile (f s) = Except.ok (g s)) →
      processSources env sctx [] i srcs =
        srcs.map (fun s => ⟨⟨f s, JContent.jstr (g s)⟩, [], [f s]⟩) := by
  intro srcs
  induction srcs with
  | nil => intro i _ _; rfl
  | cons s rest ih =>
    intro i hres hread
    have h1 : processSource env sctx [] i s = ⟨⟨f s, JContent.jstr (g s)⟩, [], [f s]⟩ := by
      simp only [processSource, hres s (List.mem_cons_self s rest), jsGet_nil,
        hread s (List.mem_cons_self s rest)]
    simp only [processSources, List.map_cons, h1,
      ih (i + 1) (fun x hx => hres x (List.mem_cons_of_mem s hx))
        (fun x hx => hread x (List.mem_cons_of_mem s hx))]

theorem processSource_warns_len (env : Env) (sctx : String) (sc0 : List (Option String))
    (i : Nat) (s : String) :
    (processSource env sctx sc0 i s).warns.length =
      if sourceFails env sctx sc0 i s then 1 else 0 := by
  cases hres : resolveAbsolutePath env sctx s with
  | error e => simp [processSource, sourceFails, hres]
  | ok abs =>
    cases hg : jsGet sc0 i with
    | jstr v => simp [processSource, sourceFails, hres, hg]
    | undef => cases hr : env.readFile abs <;> simp [processSource, sourceFails, hres, hg, hr]
    | null => cases hr : env.readFile abs <;> simp [processSource, sourceFails, hres, hg, hr]

theorem processSources_warns (env : Env) (sctx : String) (sc0 : List (Option String)) :
    ∀ (srcs : List String) (i : Nat),
      (catS ((processSources env sctx sc0 i srcs).map PSRes.warns)).length =
        countFails env sctx sc0 i srcs := by
  intro srcs
  induction srcs with
  | nil => intro i; rfl
  | cons s rest ih =>
    intro i
    simp only [processSources, List.map_cons, catS, countFails, List.length_append]
    rw [processSource_warns_len, ih (i + 1)]

theorem processSources_length (env : Env) (sctx : String) (sc0 : List (Option String)) :
    ∀ (srcs : List String) (i : Nat),
      (processSources env sctx sc0 i srcs).length = srcs.length := by
  intro srcs
  induction srcs with
  | nil => intro i; rfl
  | cons s rest ih => intro i; simp only [processSources, List.length_cons, ih (i + 1)]

/-! ## Lemmas about the scheme test -/

theorem takeWhile_all_append (p : Char → Bool) (y : Char) (hy : p y = false) :
    ∀ (a b : List Char), (∀ x ∈ a, p x = true) →
      (a ++ y :: b).takeWhile p = a ∧ (a ++ y :: b).dropWhile p = y :: b := by
  intro a
  induction a with
  | nil => intro b _; constructor <;> simp [List.takeWhile, List.dropWhile, hy]
  | cons x a' ih =>
    intro b ha
    have hx : p x = true := ha x (by simp)
    have hr := ih b (fun z hz => ha z (by simp [hz]))
    constructor <;> simp [List.takeWhile, List.dropWhile, hx, hr.1, hr.2]

theorem regexUrlTest_iff (url : String) :
    regexUrlTest url = true ↔ specGenericScheme url := by
  simp only [regexUrlTest, Bool.and_eq_true, decide_eq_true_eq]
  constructor
  · rintro ⟨hlen, hhead⟩
    rcases hD : url.data.dropWhile isAsciiLetter with _ | ⟨d, ds⟩
    · rw [hD] at hhead; simp at hhead
    · rw [hD] at hhead
      simp only [List.head?_cons, Option.some.injEq] at hhead
      refine ⟨url.data.takeWhile isAsciiLetter, ds, ?_, hlen, ?_⟩
      · rw [← hhead, ← hD]
        exact (List.takeWhile_append_dropWhile isAsciiLetter url.data).symm
      · intro c hc
        exact List.mem_takeWhile_imp hc
  · rintro ⟨a, b, hdata, hlen, hall⟩
    have hcolon : isAsciiLetter ':' = false := by decide
    have := takeWhile_all_append isAsciiLetter ':' hcolon a b hall
    rw [hdata, this.1, this.2]
    exact ⟨hlen, rfl⟩

theorem startsWithFile_scheme (url : String) (h : startsWithFile url = true) :
    specGenericScheme url := by
  obtain ⟨r, hr⟩ := isPfx_exists ['f', 'i', 'l', 'e', ':'] url.data h
  exact ⟨['f', 'i', 'l', 'e'], r, by simpa using hr, by simp, by decide⟩

/-! ## Claim theorems -/

/-- C6: path resolution fails with the unsupported-scheme error exactly
when the reference begins with two or more alphabetic letters followed by
a colon and is not a `file:` URL; a single-letter Windows drive prefix
(one letter then a colon) is never classified as a scheme and resolves via
`path.resolve(context, url)`; any non-scheme reference resolves via
`path.resolve(context, url)`, and when the resolver passes absolute
(slash-leading) paths through unchanged, an absolute non-scheme reference
is returned unchanged. -/
theorem C6_scheme_classification (env : Env) (ctx url : String) :
    ((∃ e, resolveAbsolutePath env ctx url = Except.error e) ↔
      (specGenericScheme url ∧ startsWithFile url = false))
    ∧ (∀ c cs, url.data = c :: ':' :: cs → isAsciiLetter c = true →
        resolveAbsolutePath env ctx url = Except.ok (env.pathResolve ctx url))
    ∧ (¬ specGenericScheme url →
        resolveAbsolutePath env ctx url = Except.ok (env.pathResolve ctx url))
    ∧ ((∀ b p, isPfx ['/'] p.data = true → env.pathResolve b p = p) →
        ¬ specGenericScheme url → isPfx ['/'] url.data = true →
        resolveAbsolutePath env ctx url = Except.ok url) := by
  have hmain : ∀ h1 : ¬ specGenericScheme url,
      resolveAbsolutePath env ctx url = Except.ok (env.pathResolve ctx url) := by
    intro h1
    have htest : regexUrlTest url = false := by
      cases ht : regexUrlTest url
      · rfl
      · exact absurd ((regexUrlTest_iff url).mp ht) h1
    have hsw : startsWithFile url = false := by
      cases hs : startsWithFile url
      · rfl
      · exact absurd (startsWithFile_scheme url hs) h1
    simp [resolveAbsolutePath, htest, hsw]
  refine ⟨⟨?_, ?_⟩, ?_, hmain, ?_⟩
  · rintro ⟨e, he⟩
    by_cases hc : (regexUrlTest url && !startsWithFile url) = true
    · simp only [Bool.and_eq_true, Bool.not_eq_eq_eq_not, Bool.not_true] at hc
      exact ⟨(regexUrlTest_iff url).mp hc.1, by simpa using hc.2⟩
    · simp only [resolveAbsolutePath] at he
      rw [if_neg hc] at he
      simp at he
  · rintro ⟨hscheme, hsw⟩
    have htest : regexUrlTest url = true := (regexUrlTest_iff url).mpr hscheme
    refine ⟨"URL scheme not supported: " ++ url, ?_⟩
    simp [resolveAbsolutePath, htest, hsw]
  · intro c cs hdata hc
    have h1 : ¬ specGenericScheme url := by
      rintro ⟨a, b, hdata2, hlen, hall⟩
      rw [hdata] at hdata2
      rcases a with _ | ⟨x, _ | ⟨y, a'⟩⟩
      · simp at hlen
      · simp at hlen
      · simp only [List.cons_append, List.cons.injEq] at hdata2
        have hy : y = ':' := hdata2.2.1.symm
        have : isAsciiLetter y = true := hall y (by simp)
        rw [hy] at this
        exact absurd this (by decide)
    exact hmain h1
  · intro habs h1 hslash
    rw [hmain h1]
    have hsw : startsWithFile url = false := by
      cases hs : startsWithFile url
      · rfl
      · exact absurd (startsWithFile_scheme url hs) h1
    rw [habs ctx url hslash]

/-- C6 witness: at concrete references, `http://x` is rejected as an
unsupported scheme, the drive-letter path `C:\f` resolves, and the
absolute path `/a/b` passes through the absolute-preserving resolver
unchanged. -/
theorem C6_witness :
    (∃ e, resolveAbsolutePath envAbs "/c" "http://x" = Except.error e)
    ∧ resolveAbsolutePath envAbs "/c" "C:\\f" =
        Except.ok (envAbs.pathResolve "/c" "C:\\f")
    ∧ resolveAbsolutePath envAbs "/c" "/a/b" = Except.ok "/a/b" := by
  refine ⟨?_, ?_, ?_⟩
  · exact (C6_scheme_classification envAbs "/c" "http://x").1.mpr
      ⟨⟨['h', 't', 't', 'p'], "//x".data, by decide, by decide, by decide⟩, by decide⟩
  · exact (C6_scheme_classification envAbs "/c" "C:\\f").2.1 'C' "\\f".data (by decide) (by decide)
  · refine (C6_scheme_classification envAbs "/c" "/a/b").2.2.2 ?_ ?_ (by decide)
    · intro b p hp
      simp only [envAbs, hp, if_pos]
    · rintro ⟨a, b, hdata, hlen, hall⟩
      rcases a with _ | ⟨x, a'⟩
      · simp at hlen
      · have hx : x = '/' := by
          have : "/a/b".data = ['/', 'a', '/', 'b'] := by decide
          rw [this] at hdata
          exact ((List.cons.injEq x (a' ++ ':' :: b) '/' ['a', '/', 'b']).mp hdata.symm).1.symm.symm
      
        have := hall x (by simp)
        rw [hx] at this
        exact absurd this (by decide)

/-- C2 (amended): when resolution of source `i` fails, the enricher emits
exactly one "Cannot find source file" warning, keeps the original
unresolved string as the path, registers no dependency and performs no
file read (the outcome is independent of `readFile`); the content becomes
exactly the value `sourcesContent[i]` already held — the stored string or
`null` — but `undefined` (not `null`) when that entry is absent, because
the `!== null` guard passes `undefined` through. -/
theorem C2_resolution_failure (env : Env) (sctx : String) (sc0 : List (Option String))
    (i : Nat) (s ex : String) (h : resolveAbsolutePath env sctx s = Except.error ex) :
    processSource env sctx sc0 i s =
      { res := { source := s, content := jsGet sc0 i },
        warns := ["Cannot find source file '" ++ s ++ "': " ++ ex],
        deps := [] }
    ∧ (∀ f, processSource { env with readFile := f } sctx sc0 i s =
        processSource env sctx sc0 i s) := by
  have hcontent : (if jsGet sc0 i ≠ JContent.null then jsGet sc0 i else JContent.null) =
      jsGet sc0 i := by
    cases hg : jsGet sc0 i <;> simp
  have hres : ∀ f, resolveAbsolutePath { env with readFile := f } sctx s =
      resolveAbsolutePath env sctx s := fun _ => rfl
  constructor
  · simp [processSource, h, hcontent]
  · intro f
    simp [processSource, hres f, h]

/-- C2 counterexample: with an absent `sourcesContent` entry, the content
stored for an unresolvable source is `undefined`, not `null` as the claim
states (and exactly one warning is emitted). -/
theorem C2_counterexample :
    (processSource env1 "/c" [] 0 "http://x").res.content = JContent.undef
    ∧ JContent.undef ≠ JContent.null
    ∧ (processSource env1 "/c" [] 0 "http://x").res.source = "http://x"
    ∧ (processSource env1 "/c" [] 0 "http://x").warns =
        ["Cannot find source file 'http://x': URL scheme not supported: http://x"]
    ∧ (processSource env1 "/c" [] 0 "http://x").deps = [] :=
  ⟨rfl, by decide, rfl, rfl, rfl⟩

/-- C2 witness: the amended theorem applied at a concrete unresolvable
source with a stored string entry. -/
theorem C2_witness :
    processSource env1 "/c" [some "E"] 0 "http://x" =
      { res := { source := "http://x", content := jsGet [some "E"] 0 },
        warns := ["Cannot find source file 'http://x': URL scheme not supported: http://x"],
        deps := [] }
    ∧ (∀ f, processSource { env1 with readFile := f } "/c" [some "E"] 0 "http://x" =
        processSource env1 "/c" [some "E"] 0 "http://x") :=
  C2_resolution_failure env1 "/c" [some "E"] 0 "http://x"
    "URL scheme not supported: http://x" rfl

theorem catS_map_const_nil {α : Type} : ∀ (l : List α), catS (l.map (fun _ => ([] : List String))) = []
  | [] => rfl
  | _ :: r => by simp only [List.map_cons, catS, List.nil_append, catS_map_const_nil r]

theorem catS_map_single {α : Type} (f : α → String) :
    ∀ (l : List α), catS (l.map (fun x => [f x])) = l.map f
  | [] => rfl
  | x :: r => by simp only [List.map_cons, catS, List.singleton_append, catS_map_single f r]

/-- C1 (amended): with `keepRelativeSources: true`, once the map is read,
the output `sources` array is the ORIGINAL input `sources` — without the
`sourceRoot + "/"` prefix, which is only applied to the local array used
for resolution — while `sourcesContent` is still fully populated from the
resolved reads of the prefixed sources (here: every prefixed source
resolves via `f` and reads via `g`). -/
theorem C1_keepRelativeSources (env : Env) (ctx url : String) (d0 : List String)
    (m : RawMap) (sctx : String) (f g : String → String)
    (h : readSourceMap env ctx url = (d0, Except.ok (m, sctx)))
    (hsc : m.sourcesContent = none)
    (hres : ∀ s ∈ psources m, resolveAbsolutePath env sctx s = Except.ok (f s))
    (hread : ∀ s ∈ psources m, env.readFile (f s) = Except.ok (g s)) :
    loadSourceMap env ctx url true =
      ([], d0 ++ (psources m).map f,
       Except.ok { sources := m.sources,
                   sourcesContent := (psources m).map (fun s => JContent.jstr (g s)) }) := by
  simp only [loadSourceMap, h, hsc, Option.getD_none,
    processSources_all_ok env sctx f g (psources m) 0 hres hread, List.map_map]
  simp only [Function.comp, catS_map_const_nil, catS_map_single, List.map_map, if_pos,
    Prod.mk.injEq, true_and, and_true, eq_self_iff_true, if_true]
  refine ⟨?_, ?_, ?_⟩
  · generalize psources m = l
    induction l with
    | nil => rfl
    | cons s r ih => simp [catS, ih]
  · refine congrArg (d0 ++ ·) ?_
    generalize psources m = l
    induction l with
    | nil => rfl
    | cons s r ih => simp [catS, ih]
  · refine congrArg Except.ok (congrArg (OutMap.mk m.sources) ?_)
    generalize psources m = l
    induction l with
    | nil => rfl
    | cons s r ih => simp [ih]

/-- C1 counterexample: with `sourceRoot = "R"`, `sources = ["a.js"]` and
`keepRelativeSources: true`, the output `sources` is `["a.js"]` — the
content was read from the resolved, prefixed `/c/R/a.js` — and not the
root-prefixed `["R/a.js"]` the claim requires. -/
theorem C1_counterexample :
    loadSourceMap env1 "/c" "data:a;base64,QQ==" true =
      ([], ["/c/R/a.js"],
       Except.ok { sources := ["a.js"], sourcesContent := [JContent.jstr "SRC"] })
    ∧ (["a.js"] : List String) ≠ ["R/a.js"] :=
  ⟨rfl, by decide⟩

/-- C1 witness: the amended theorem applied in the concrete world
`env1`. -/
theorem C1_witness :
    loadSourceMap env1 "/c" "data:a;base64,QQ==" true =
      ([],
       [] ++ (psources { sourceRoot := some "R", sources := ["a.js"], sourcesContent := none }).map
         (fun _ => "/c/R/a.js"),
       Except.ok
        { sources := RawMap.sources { sourceRoot := some "R", sources := ["a.js"], sourcesContent := none },
          sourcesContent :=
            (psources { sourceRoot := some "R", sources := ["a.js"], sourcesContent := none }).map
              (fun _ => JContent.jstr "SRC") }) :=
  C1_keepRelativeSources env1 "/c" "data:a;base64,QQ==" []
    { sourceRoot := some "R", sources := ["a.js"], sourcesContent := none } "/c"
    (fun _ => "/c/R/a.js") (fun _ => "SRC") rfl rfl
    (fun s hs => by
      have hs' : s = "R/a.js" := List.mem_singleton.mp hs
      rw [hs']; rfl)
    (fun s hs => rfl)

theorem processSources_warns_le (env : Env) (sctx : String) (sc0 : List (Option String)) :
    ∀ (srcs : List String) (i : Nat) (r : PSRes),
      r ∈ processSources env sctx sc0 i srcs → r.warns.length ≤ 1 := by
  intro srcs
  induction srcs with
  | nil => intro i r hr; simp [processSources] at hr
  | cons s rest ih =>
    intro i r hr
    rcases List.mem_cons.mp hr with hr1 | hr2
    · rw [hr1, processSource_warns_len]
      split <;> omega
    · exact ih (i + 1) r hr2

/-- C5: once the raw map has been parsed, enrichment never fails: the
result is always an enriched map whose `sources` and `sourcesContent`
arrays both have exactly one entry per input source (indices aligned by
construction of the fan-out), the number of warnings equals the number of
failing sources, and every individual source contributes at most one
warning. -/
theorem C5_partial_failure_isolation (env : Env) (ctx url : String) (keep : Bool)
    (d0 : List String) (m : RawMap) (sctx : String)
    (h : readSourceMap env ctx url = (d0, Except.ok (m, sctx))) :
    (∃ out, (loadSourceMap env ctx url keep).2.2 = Except.ok out
      ∧ out.sources.length = m.sources.length
      ∧ out.sourcesContent.length = m.sources.length)
    ∧ (loadSourceMap env ctx url keep).1.length =
        countFails env sctx (m.sourcesContent.getD []) 0 (psources m)
    ∧ (∀ r ∈ processSources env sctx (m.sourcesContent.getD []) 0 (psources m),
        r.warns.length ≤ 1) := by
  have hplen : (psources m).length = m.sources.length := by simp [psources]
  refine ⟨⟨OutMap.mk
      (if keep then m.sources else
        (processSources env sctx (m.sourcesContent.getD []) 0 (psources m)).map
          (fun r => r.res.source))
      ((processSources env sctx (m.sourcesContent.getD []) 0 (psources m)).map
        (fun r => r.res.content)), ?_, ?_, ?_⟩, ?_, ?_⟩
  · simp only [loadSourceMap, h]
  · cases keep with
    | true => simp
    | false => simp [processSources_length, hplen]
  · simp [processSources_length, hplen]
  · simp only [loadSourceMap, h, processSources_warns]
  · exact processSources_warns_le env sctx (m.sourcesContent.getD []) (psources m) 0

/-- C5 witness: in `env5` one of the two sources fails; the map is still
returned with both arrays of length two and exactly one warning. -/
theorem C5_witness :
    (∃ out, (loadSourceMap env5 "/c" "data:a;base64,Qg==" false).2.2 = Except.ok out
      ∧ out.sources.length = m5.sources.length
      ∧ out.sourcesContent.length = m5.sources.length)
    ∧ (loadSourceMap env5 "/c" "data:a;base64,Qg==" false).1.length =
        countFails env5 "/c" (m5.sourcesContent.getD []) 0 (psources m5)
    ∧ (∀ r ∈ processSources env5 "/c" (m5.sourcesContent.getD []) 0 (psources m5),
        r.warns.length ≤ 1) :=
  C5_partial_failure_isolation env5 "/c" "data:a;base64,Qg==" false [] m5 "/c" rfl

/-- C9: dependencies are registered exactly at the successful file reads:
never for an inline map; for the map file exactly when its read succeeds
(even if its JSON then fails to parse, since registration precedes
parsing); for a source exactly when it resolves, its content is not
already a string in `sourcesContent`, and its read succeeds; and the
loader's dependency list is precisely the map-file registration followed
by the per-source registrations. -/
theorem C9_dependency_registration :
    (∀ (env : Env) (ctx url payload : String), dataUrlCapture url = some payload →
      (readSourceMap env ctx url).1 = [])
    ∧ (∀ (env : Env) (ctx url abs : String), dataUrlCapture url = none →
        resolveAbsolutePath env ctx url = Except.ok abs →
        (∀ e, env.readFile abs = Except.error e → (readSourceMap env ctx url).1 = [])
        ∧ (∀ c, env.readFile abs = Except.ok c → (readSourceMap env ctx url).1 = [abs]))
    ∧ (∀ (env : Env) (sctx : String) (sc0 : List (Option String)) (i : Nat) (s : String),
        (∀ ex, resolveAbsolutePath env sctx s = Except.error ex →
          (processSource env sctx sc0 i s).deps = [])
        ∧ (∀ abs, resolveAbsolutePath env sctx s = Except.ok abs →
            (∀ v, jsGet sc0 i = JContent.jstr v → (processSource env sctx sc0 i s).deps = [])
            ∧ ((∀ v, jsGet sc0 i ≠ JContent.jstr v) →
                (∀ e, env.readFile abs = Except.error e →
                  (processSource env sctx sc0 i s).deps = [])
                ∧ (∀ c, env.readFile abs = Except.ok c →
                    (processSource env sctx sc0 i s).deps = [abs]))))
    ∧ (∀ (env : Env) (ctx url : String) (k : Bool) (d0 : List String) (m : RawMap)
        (sctx : String), readSourceMap env ctx url = (d0, Except.ok (m, sctx)) →
        (loadSourceMap env ctx url k).2.1 =
          d0 ++ catS ((processSources env sctx (m.sourcesContent.getD []) 0 (psources m)).map
            PSRes.deps))
    ∧ (∀ (env : Env) (ctx url : String) (k : Bool) (d0 : List String) (e : String),
        readSourceMap env ctx url = (d0, Except.error e) →
        (loadSourceMap env ctx url k).2.1 = d0) := by
  refine ⟨?_, ?_, ?_, ?_, ?_⟩
  · intro env ctx url payload hcap
    cases hp : env.parseJson (env.decodeBase64 payload) <;>
      simp [readSourceMap, hcap, hp]
  · intro env ctx url abs hcap hres
    constructor
    · intro e hread
      simp [readSourceMap, hcap, hres, hread]
    · intro cc hread
      cases hp : env.parseJson cc <;> simp [readSourceMap, hcap, hres, hread, hp]
  · intro env sctx sc0 i s
    constructor
    · intro ex hres
      simp [processSource, hres]
    · intro abs hres
      constructor
      · intro v hv
        simp [processSource, hres, hv]
      · intro hnv
        cases hg : jsGet sc0 i with
        | jstr v => exact absurd hg (hnv v)
        | undef =>
          exact ⟨fun e he => by simp [processSource, hres, hg, he],
                 fun cc hc => by simp [processSource, hres, hg, hc]⟩
        | null =>
          exact ⟨fun e he => by simp [processSource, hres, hg, he],
                 fun cc hc => by simp [processSource, hres, hg, hc]⟩
  · intro env ctx url k d0 m sctx h
    simp only [loadSourceMap, h]
  · intro env ctx url k d0 e h
    simp only [loadSourceMap, h]

/-- C9 witness: the inline branch of the theorem at a concrete data URL
registers no dependency. -/
theorem C9_witness : (readSourceMap env1 "/c" "data:a;base64,QQ==").1 = [] :=
  C9_dependency_registration.1 env1 "/c" "data:a;base64,QQ==" "QQ==" rfl

theorem loaderMatch_empty : loaderMatch ("" : String).data = none := rfl

/-- C7: when the matched directive carries a data URL whose decoded
payload fails to parse, the loader returns the text unchanged with no
map, emits exactly the one "Cannot parse inline SourceMap" warning
carrying the at-most-50-character payload snippet, and registers no
dependency. -/
theorem C7_corrupt_inline_map (env : Env) (ctx : String) (text : String) (keep : Bool)
    (m : DirectiveMatch) (payload e : String)
    (h1 : loaderMatch text.data = some m)
    (h2 : dataUrlCapture (String.mk m.url) = some payload)
    (h3 : env.parseJson (env.decodeBase64 payload) = Except.error e) :
    loaderRun env ctx text none keep =
      (text, none, ["Cannot parse inline SourceMap '" ++ take50 payload ++ "': " ++ e], [])
    ∧ (take50 payload).length ≤ 50 := by
  constructor
  · have htext : ¬ (text = "") := by
      intro he
      rw [he, loaderMatch_empty] at h1
      cases h1
    simp only [loaderRun, Option.isSome_none, Bool.or_false, h1, loadSourceMap,
      readSourceMap, h2, h3]
    simp [htext]
  · have : (take50 payload).length = (payload.data.take 50).length := rfl
    rw [this, List.length_take]
    exact Nat.min_le_left 50 payload.data.length

/-- C7 witness: the corrupted payload `Qm8=` in `env1` yields the single
warning and leaves the input untouched. -/
theorem C7_witness :
    loaderRun env1 "/c" text7 none false =
      (text7, none,
       ["Cannot parse inline SourceMap '" ++ take50 "Qm8=" ++ "': SyntaxError: Unexpected token"],
       [])
    ∧ (take50 "Qm8=").length ≤ 50 :=
  C7_corrupt_inline_map env1 "/c" text7 false
    ⟨"A\n".data, "//# sourceMappingURL=data:a;base64,Qm8=\n".data,
     "data:a;base64,Qm8=".data, "\n".data, []⟩ "Qm8=" "SyntaxError: Unexpected token"
    rfl rfl rfl

/-- C8 (code bug): for a directive referencing a missing map file, the
text is left unchanged, no map is produced and no dependency registered —
but the single emitted warning is the raw filesystem rejection
(`ENOENT: …`), propagated uncaught out of `readSourceMap`, and does NOT
match any "Cannot open" pattern; the repository's own test
("should warn on missing SourceMap") expects a
`Cannot open SourceMap '<path>':` message that no code path produces. -/
theorem C8_missing_map_file :
    loaderRun env8 "/c" text8 none false =
      (text8, none, ["ENOENT: no such file or directory, open '/c/missing.map'"], [])
    ∧ occursIn ("Cannot open").data
        ("ENOENT: no such file or directory, open '/c/missing.map'").data = false
    ∧ occursIn ("cannot open").data
        ("ENOENT: no such file or directory, open '/c/missing.map'").data = false :=
  ⟨rfl, by decide, by decide⟩

/-- C4 (amended): on success the returned text is the input with the
FIRST occurrence of the matched string `match[0]` removed
(`inputSource.replace(match[0], "")`), paired with the enriched map; this
coincides with excising the matched span exactly when the matched text
does not occur starting before the match position. -/
theorem C4_directive_removal (env : Env) (ctx : String) (text : String) (keep : Bool)
    (m : DirectiveMatch) (out : OutMap) (w d : List String)
    (h1 : loaderMatch text.data = some m)
    (h2 : loadSourceMap env ctx (String.mk m.url) keep = (w, d, Except.ok out)) :
    loaderRun env ctx text none keep =
      (String.mk (replaceFirst m.matched text.data), some out, w, d)
    ∧ ((∀ k, k < m.pre.length → isPfx m.matched (List.drop k text.data) = false) →
        replaceFirst m.matched text.data = m.pre ++ m.post) := by
  have hd : text.data = m.pre ++ m.matched ++ m.post := by
    have := (loaderMatch_spec text.data m h1).2.1
    rw [this]
    simp [List.append_assoc]
  constructor
  · have htext : ¬ (text = "") := by
      intro he
      rw [he, loaderMatch_empty] at h1
      cases h1
    simp only [loaderRun, Option.isSome_none, Bool.or_false, h1, h2]
    simp [htext]
  · intro hk
    rw [hd] at hk ⊢
    exact replaceFirst_no_earlier m.matched m.post m.pre hk

/-- C4 counterexample: `exDup` contains the same directive text twice; the
regex matches the LAST occurrence (its `pre` spans the first directive and
`X`), but the returned text removes the FIRST occurrence — it is not the
input with the matched span excised, which would be `dirStr ++ "X\n"`. -/
theorem C4_counterexample :
    loaderMatch exDup.data =
      some ⟨(dirStr ++ "X\n").data, dirStr.data, "data:a;base64,QQ==".data, "\n".data, []⟩
    ∧ loaderRun env4 "/c" exDup none false =
        ("X\n" ++ dirStr, some { sources := [], sourcesContent := [] }, [], [])
    ∧ ("X\n" ++ dirStr : String) ≠ dirStr ++ "X\n" :=
  ⟨rfl, rfl, by decide⟩

/-- C4 witness: the amended theorem at the single-directive input
`text4`. -/
theorem C4_witness :
    loaderRun env4 "/c" text4 none false =
      (String.mk (replaceFirst ("//# sourceMappingURL=data:a;base64,QQ==\n").data text4.data),
       some { sources := [], sourcesContent := [] }, [], [])
    ∧ ((∀ k, k < ("A\n").data.length →
          isPfx ("//# sourceMappingURL=data:a;base64,QQ==\n").data (List.drop k text4.data) = false) →
        replaceFirst ("//# sourceMappingURL=data:a;base64,QQ==\n").data text4.data =
          ("A\n").data ++ []) :=
  C4_directive_removal env4 "/c" text4 false
    ⟨("A\n").data, ("//# sourceMappingURL=data:a;base64,QQ==\n").data,
     ("data:a;base64,QQ==").data, ("\n").data, []⟩
    { sources := [], sourcesContent := [] } [] [] rfl rfl

/-- C3 (amended): whatever match the loader honors, the marker
`sourceMappingURL` does not occur anywhere after the honored captured
reference — so any other directive occurrence begins before the end of
the honored capture, and among non-overlapping directive occurrences only
the last one can be matched. -/
theorem C3_last_directive (s : List Char) (m : DirectiveMatch)
    (h : loaderMatch s = some m) : occursIn smToken m.rest = false := by
  have := (loaderMatch_spec s m h).1
  simpa [noToken] using this

/-- C3 counterexample: in `ex3n` a block-form directive occurrence starts
at position 0 and a line-form directive occurrence starts at position 21
(the line pattern matches there, witnessed by `tryAt2`); the LAST
occurrence by text position is the line one, yet the loader honors the
EARLIER block match (its `pre` is empty and it captures the whole inner
directive text as the reference), because `match(regex1)` is consulted
first. -/
theorem C3_counterexample :
    loaderMatch ex3n.data =
      some ⟨[], ex3n.data, ("//#sourceMappingURL=x").data, ("\n*/").data, []⟩
    ∧ (tryAt2 (List.drop 21 ex3n.data)).isSome = true :=
  ⟨rfl, rfl⟩

/-- C3 witness: with two line directives, the amended guarantee holds at
the honored (second) match. -/
theorem C3_witness : occursIn smToken ("\n" : String).data = false :=
  C3_last_directive ex3w.data
    ⟨("//# sourceMappingURL=a.map\n").data, ("//# sourceMappingURL=b.map\n").data,
     ("b.map").data, ("\n").data, []⟩ rfl

/-- C10: if the literal marker `sourceMappingURL` occurs at a position at
or past the end of every well-formed directive-comment occurrence (either
comment form, lookahead ignored), then neither directive pattern matches
at all, and the loader passes the input through unchanged with no map, no
warnings and no dependencies. -/
theorem C10_token_after_last_directive (env : Env) (ctx : String) (text : String)
    (keep : Bool) (p : Nat)
    (h1 : isPfx smToken (List.drop p text.data) = true)
    (h2 : ∀ q, q < text.data.length → ∀ e ∈ formEnds text.data q, e ≤ p) :
    loaderMatch text.data = none ∧
      loaderRun env ctx text none keep = (text, none, [], []) := by
  have hnone : loaderMatch text.data = none := by
    cases hm : loaderMatch text.data with
    | none => rfl
    | some m =>
      exfalso
      obtain ⟨hnt, hdecomp, A, hA, hA2, e, he, hle⟩ := loaderMatch_spec text.data m hm
      have hmlen : m.matched.length + m.post.length = A.length + m.rest.length := by
        have := congrArg List.length hA
        simpa [List.length_append] using this
      have hlen1 := congrArg List.length hdecomp
      simp only [List.length_append] at hlen1
      have hq : m.pre.length < text.data.length := by omega
      have hep := h2 m.pre.length hq e he
      have hPA : text.data = (m.pre ++ A) ++ m.rest := by
        rw [hdecomp, hA]; simp [List.append_assoc]
      have hplen : (m.pre ++ A).length ≤ p := by
        simp only [List.length_append]; omega
      have hdrop : List.drop p text.data =
          List.drop (p - (m.pre ++ A).length) m.rest := by
        rw [hPA]
        rw [show p = (m.pre ++ A).length + (p - (m.pre ++ A).length) from by omega]
        rw [← List.drop_drop]
        rw [List.drop_left]
        congr 1
        omega
      rw [hdrop] at h1
      have hocc := occursIn_drop (p - (m.pre ++ A).length) m.rest h1
      rw [show occursIn smToken m.rest = false from by simpa [noToken] using hnt] at hocc
      cases hocc
  refine ⟨hnone, ?_⟩
  by_cases htxt : text = "" <;> simp [loaderRun, hnone, htxt]

/-- C10 witness: in `ex10` the only directive FORM ends at position 23 and
the marker occurs again at position 27 (inside `var sourceMappingURL`);
no pattern matches and the loader passes the text through. -/
theorem C10_witness :
    loaderMatch ex10.data = none ∧
      loaderRun env1 "/c" ex10 none false = (ex10, none, [], []) :=
  C10_token_after_last_directive env1 "/c" ex10 false 27 (by decide) (by decide)
